import Mathlib

set_option maxRecDepth 20000

/-!
Shallow embedding of src/btt-altcoin-scraper.py.

Strings from the page are modelled as `List Char`.  Python functions that can
raise are modelled with `Option` (`none` stands for an uncaught exception).
Scanning functions that walk the input take a fuel argument; the wrappers pass
the input length, which suffices because every scanning step consumes at least
one character, so with that fuel the scan always reaches the end of the input.
The regex character classes are modelled at ASCII level (the digit class, the
whitespace class and the word class of the Python patterns also cover some
non-ASCII characters; every input exercised by the claims is ASCII).
-/

namespace Scraper

/-- ASCII whitespace, the characters matched by the whitespace class of the
Python patterns and stripped by str.strip. -/
def isSpaceCh (c : Char) : Bool :=
  c = ' ' || c = Char.ofNat 9 || c = Char.ofNat 10 || c = Char.ofNat 13 ||
    c = Char.ofNat 11 || c = Char.ofNat 12

/-- Python str.strip: drop whitespace from both ends. -/
def pyStrip (s : List Char) : List Char :=
  ((s.dropWhile isSpaceCh).reverse.dropWhile isSpaceCh).reverse

/-- Value of a decimal digit string, as computed by Python int on it. -/
def digitsVal (ds : List Char) : Nat :=
  ds.foldl (fun a c => a * 10 + (c.toNat - 48)) 0

/-- One pass of Python str.replace: non-overlapping, left to right.  Fuel
exhaustion returns the rest of the input unchanged; the wrapper passes the
input length, which is enough fuel since every step consumes a character. -/
def pyReplaceF (pat rep : List Char) : Nat → List Char → List Char
  | 0, s => s
  | _ + 1, [] => []
  | fuel + 1, c :: rest =>
    if pat ≠ [] ∧ pat.isPrefixOf (c :: rest) then
      rep ++ pyReplaceF pat rep fuel ((c :: rest).drop pat.length)
    else
      c :: pyReplaceF pat rep fuel rest

def pyReplace (pat rep s : List Char) : List Char :=
  pyReplaceF pat rep s.length s

/-- Model of the numeric character reference substitution in parse_posts:
re.sub of ampersand, hash, one or more digits, semicolon, replaced by
chr of the digit value.  Python chr raises ValueError when the value exceeds
0x10FFFF = 1114111, and re.sub propagates it: that is the `none` result.
Values in the surrogate range, which Python chr does accept, are outside the
range of Lean Char; the theorems below therefore only evaluate this function
at non-surrogate code points. -/
def numDecodeF : Nat → List Char → Option (List Char)
  | 0, s => some s
  | _ + 1, [] => some []
  | fuel + 1, c :: rest =>
    if c = '&' then
      match rest with
      | '#' :: rest2 =>
        let ds := rest2.takeWhile Char.isDigit
        let rest3 := rest2.dropWhile Char.isDigit
        if ds ≠ [] then
          match rest3 with
          | ';' :: rest4 =>
            if digitsVal ds < 1114112 then
              (numDecodeF fuel rest4).map (fun t => Char.ofNat (digitsVal ds) :: t)
            else none
          | _ => (numDecodeF fuel rest).map (fun t => c :: t)
        else (numDecodeF fuel rest).map (fun t => c :: t)
      | _ => (numDecodeF fuel rest).map (fun t => c :: t)
    else (numDecodeF fuel rest).map (fun t => c :: t)

/-- Model of the tag-removal substitution in parse_posts: every span of a
less-than sign, one or more characters none of which is a greater-than sign,
and a greater-than sign is deleted, non-overlapping, left to right. -/
def stripTagsF : Nat → List Char → List Char
  | 0, s => s
  | _ + 1, [] => []
  | fuel + 1, c :: rest =>
    if c = '<' then
      match rest.takeWhile (fun x => x ≠ '>'), rest.dropWhile (fun x => x ≠ '>') with
      | _ :: _, '>' :: rest3 => stripTagsF fuel rest3
      | _, _ => c :: stripTagsF fuel rest
    else c :: stripTagsF fuel rest

/-- The five literal entity replacements of parse_posts, lines 123 and 124. -/
def ampPat : List Char := ['&', 'a', 'm', 'p', ';']
def ltPat : List Char := ['&', 'l', 't', ';']
def gtPat : List Char := ['&', 'g', 't', ';']
def aposPat : List Char := ['&', '#', '0', '3', '9', ';']
def quotPat : List Char := ['&', 'q', 'u', 'o', 't', ';']

/-- The title cleanup of parse_posts, lines 123 to 127: the five literal
replacements, then the numeric character reference decode, then tag removal.
`none` models the ValueError raised by chr on an out-of-range reference. -/
def cleanTitle (t : List Char) : Option (List Char) :=
  let t1 := pyReplace ampPat ['&'] t
  let t2 := pyReplace ltPat ['<'] t1
  let t3 := pyReplace gtPat ['>'] t2
  let t4 := pyReplace aposPat [Char.ofNat 39] t3
  let t5 := pyReplace quotPat [Char.ofNat 34] t4
  (numDecodeF t5.length t5).map (fun u => stripTagsF u.length u)

/-- Match a literal, returning the remainder. -/
def lit (pat s : List Char) : Option (List Char) :=
  if pat.isPrefixOf s then some (s.drop pat.length) else none

/-- One or more whitespace characters (greedy; every literal that follows a
whitespace quantifier in the patterns starts with a non-whitespace character,
so maximal munch is faithful). -/
def ws1 (s : List Char) : Option (List Char) :=
  match s with
  | c :: rest => if isSpaceCh c then some (rest.dropWhile isSpaceCh) else none
  | [] => none

/-- Zero or more whitespace characters. -/
def wsMany (s : List Char) : List Char := s.dropWhile isSpaceCh

/-- One or more decimal digits (greedy; every literal that follows a digit
group in the patterns starts with a non-digit, so maximal munch is faithful). -/
def digits1 (s : List Char) : Option (List Char × List Char) :=
  let ds := s.takeWhile Char.isDigit
  if ds = [] then none else some (ds, s.dropWhile Char.isDigit)

/-- The captured groups of one match of the post pattern of parse_posts:
message id digits, topic id digits, the page-suffix digits of the link, and
the raw title fragment. -/
structure PostMatch where
  msgId : List Char
  topicId : List Char
  pageSuf : List Char
  title : List Char
deriving DecidableEq

def topicUrlHead : List Char := ("https://bitcointalk.org/index.php?topic=").data

/-- The closing part of the post pattern: the anchor close tag, optional
whitespace, the span close tag. -/
def titleEnd (s : List Char) : Option (List Char) := do
  let s1 ← lit (("</a>").data) s
  lit (("</span>").data) (wsMany s1)

/-- The lazy one-or-more title group: the shortest non-empty prefix followed
by the closing part. -/
def lazyTitle : List Char → Option (List Char × List Char)
  | [] => none
  | c :: rest =>
    match titleEnd rest with
    | some r => some ([c], r)
    | none => (lazyTitle rest).map (fun p => (c :: p.1, p.2))

/-- Attempt the post pattern at the current position, returning the captured
groups and the remainder after the match. -/
def matchPostAt (s : List Char) : Option (PostMatch × List Char) := do
  let s1 ← lit (("<span").data) s
  let s2 ← ws1 s1
  let s3 ← lit (("id=\"msg_").data) s2
  let (msg, s4) ← digits1 s3
  let s5 ← lit (("\">").data) s4
  let s6 := wsMany s5
  let s7 ← lit (("<a").data) s6
  let s8 ← ws1 s7
  let s9 ← lit (("href=\"").data) s8
  let s10 ← lit topicUrlHead s9
  let (tid, s11) ← digits1 s10
  let s12 ← lit ([Char.ofNat 46]) s11
  let (suf, s13) ← digits1 s12
  let s14 ← lit (("\">").data) s13
  let (ttl, s15) ← lazyTitle s14
  pure (⟨msg, tid, suf, ttl⟩, s15)

/-- finditer for the post pattern: scan left to right, emit non-overlapping
matches, resume after each match. -/
def scanPosts : Nat → List Char → List PostMatch
  | 0, _ => []
  | _ + 1, [] => []
  | fuel + 1, c :: rest =>
    match matchPostAt (c :: rest) with
    | some (m, r) => m :: scanPosts fuel r
    | none => scanPosts fuel rest

def findPosts (html : List Char) : List PostMatch := scanPosts html.length html

/-- Attempt the pinned-marker pattern at the current position. -/
def matchStickyAt (s : List Char) : Option (List Char × List Char) := do
  let s1 ← lit (("id=\"stickyicon_").data) s
  let (tid, s2) ← digits1 s1
  let s3 ← lit ([Char.ofNat 34]) s2
  pure (tid, s3)

/-- finditer for the pinned-marker pattern; the Python code puts the captured
topic id strings into a set, so only list membership of the result is used. -/
def scanSticky : Nat → List Char → List (List Char)
  | 0, _ => []
  | _ + 1, [] => []
  | fuel + 1, c :: rest =>
    match matchStickyAt (c :: rest) with
    | some (t, r) => t :: scanSticky fuel r
    | none => scanSticky fuel rest

def findSticky (html : List Char) : List (List Char) := scanSticky html.length html

/-- The tail of the author pattern at the current position: the profile
literal, zero or more non-quote characters, quote, greater-than, the captured
one or more non-less-than characters, and the anchor close tag. -/
def profTailAt (s : List Char) : Option (List Char × List Char) := do
  let s1 ← lit (("action=profile").data) s
  let s2 := s1.dropWhile (fun c => c ≠ Char.ofNat 34)
  let s3 ← lit [Char.ofNat 34, '>'] s2
  let auth := s3.takeWhile (fun c => c ≠ '<')
  let s4 := s3.dropWhile (fun c => c ≠ '<')
  if auth = [] then none
  else (lit (("</a>").data) s4).map (fun r => (auth, r))

/-- The lazy gap before the profile tail: try the tail at each successive
position. -/
def profSearch : Nat → List Char → Option (List Char × List Char)
  | 0, _ => none
  | _ + 1, [] => none
  | fuel + 1, c :: rest =>
    match profTailAt (c :: rest) with
    | some r => some r
    | none => profSearch fuel rest

/-- The lazy gap ending at the first occurrence of a literal: remainder after
that occurrence. -/
def findAfterLit (pat : List Char) : List Char → Option (List Char)
  | [] => if pat.isPrefixOf ([] : List Char) then some [] else none
  | c :: rest =>
    if pat.isPrefixOf (c :: rest) then some ((c :: rest).drop pat.length)
    else findAfterLit pat rest

/-- Attempt the author pattern at the current position: topic id digits, dot,
digits, quote greater-than, lazy gap to the anchor close, lazy gap to the
profile tail. -/
def matchAuthorAt (s : List Char) : Option ((List Char × List Char) × List Char) := do
  let s1 ← lit (("topic=").data) s
  let (tid, s2) ← digits1 s1
  let s3 ← lit ([Char.ofNat 46]) s2
  let (_, s4) ← digits1 s3
  let s5 ← lit (("\">").data) s4
  let s6 ← findAfterLit (("</a>").data) s5
  let (auth, r) ← profSearch s6.length s6
  pure ((tid, pyStrip auth), r)

/-- finditer for the author pattern. -/
def scanAuthors : Nat → List Char → List (List Char × List Char)
  | 0, _ => []
  | _ + 1, [] => []
  | fuel + 1, c :: rest =>
    match matchAuthorAt (c :: rest) with
    | some (p, r) => p :: scanAuthors fuel r
    | none => scanAuthors fuel rest

def findAuthors (html : List Char) : List (List Char × List Char) := scanAuthors html.length html

/-- Python dict assignment on an association list with string keys: an
existing key keeps its position and gets the new value, a new key is appended. -/
def sdictInsert (k v : List Char) : List (List Char × List Char) → List (List Char × List Char)
  | [] => [(k, v)]
  | (k0, v0) :: rest => if k0 = k then (k0, v) :: rest else (k0, v0) :: sdictInsert k v rest

/-- The authors dict of parse_posts: successive assignments in match order. -/
def sdictOf (l : List (List Char × List Char)) : List (List Char × List Char) :=
  l.foldl (fun d p => sdictInsert p.1 p.2 d) []

/-- Python dict get with a default. -/
def sdictGet (d : List (List Char × List Char)) (k dflt : List Char) : List Char :=
  match d.find? (fun p => p.1 == k) with
  | some p => p.2
  | none => dflt

/-- A post record as built by parse_posts: both ids converted to integers by
Python int. -/
structure Post where
  topic_id : Nat
  msg_id : Nat
  title : List Char
  url : List Char
  author : List Char
deriving DecidableEq

/-- Group 2 of the post pattern, the full topic URL. -/
def postUrl (m : PostMatch) : List Char :=
  topicUrlHead ++ m.topicId ++ Char.ofNat 46 :: m.pageSuf

def buildPost (authors : List (List Char × List Char)) (m : PostMatch) (ttl : List Char) : Post :=
  { topic_id := digitsVal m.topicId
    msg_id := digitsVal m.msgId
    title := ttl
    url := postUrl m
    author := sdictGet authors m.topicId [] }

/-- The per-match loop of parse_posts, lines 116 to 148: strip and clean the
title (this happens before the skip tests, so a failing numeric reference
raises even for a match that would be skipped), then skip pinned topics by
string membership, then skip small message ids, then small topic ids,
otherwise emit the record. -/
def processMatches (authors : List (List Char × List Char)) (sticky : List (List Char)) :
    List PostMatch → Option (List Post)
  | [] => some []
  | m :: ms => do
    let ttl ← cleanTitle (pyStrip m.title)
    let rest ← processMatches authors sticky ms
    if m.topicId ∈ sticky then pure rest
    else if digitsVal m.msgId < 20000000 then pure rest
    else if digitsVal m.topicId < 5500000 then pure rest
    else pure (buildPost authors m ttl :: rest)

/-- Stable insertion into a list sorted descending by the key: the new element
goes after every element whose key is at least as large, matching the
stability of the Python sort. -/
def insertDescBy {α : Type} (key : α → Nat) (a : α) : List α → List α
  | [] => [a]
  | b :: rest => if key a ≤ key b then b :: insertDescBy key a rest else a :: b :: rest

/-- Stable descending sort by a key, the model of list.sort with reverse. -/
def sortDescBy {α : Type} (key : α → Nat) (l : List α) : List α :=
  l.foldl (fun acc a => insertDescBy key a acc) []

/-- The Boolean form of the three keep conditions of the per-match loop. -/
def keepM (sticky : List (List Char)) (m : PostMatch) : Bool :=
  decide (m.topicId ∉ sticky ∧ ¬ digitsVal m.msgId < 20000000 ∧ ¬ digitsVal m.topicId < 5500000)

/-- Model of parse_posts: find the anchor matches, the pinned markers and the
author attributions, run the per-match loop, sort descending by topic id.
`none` models the ValueError raised by chr on an out-of-range numeric
character reference in a matched title. -/
def parse_posts (html : List Char) : Option (List Post) :=
  (processMatches (sdictOf (findAuthors html)) (findSticky html) (findPosts html)).map
    (sortDescBy (fun p => p.topic_id))

/-- An atom of the keyword patterns: a literal character or the any-character
wildcard (which does not match a newline). -/
inductive RAtom where
  | ch (c : Char)
  | dot
deriving DecidableEq

/-- An element of the keyword patterns: an atom, an optional atom, or a word
boundary. -/
inductive RElem where
  | one (a : RAtom)
  | optA (a : RAtom)
  | wb
deriving DecidableEq

/-- Word characters for the word-boundary assertion (ASCII part of the Python
word class). -/
def isWordCh (c : Char) : Bool := c.isAlphanum || c = '_'

def isWordOpt : Option Char → Bool
  | some c => isWordCh c
  | none => false

def headWord : List Char → Bool
  | [] => false
  | c :: _ => isWordCh c

def atomMatch : RAtom → List Char → Option (Char × List Char)
  | RAtom.ch c, x :: xs => if x = c then some (x, xs) else none
  | RAtom.dot, x :: xs => if x ≠ Char.ofNat 10 then some (x, xs) else none
  | _, [] => none

/-- Does the element sequence match a prefix of the input, given the previous
character for boundary tests.  Both branches of an optional atom are tried. -/
def matchElems : List RElem → Option Char → List Char → Bool
  | [], _, _ => true
  | RElem.one a :: es, _, xs =>
    match atomMatch a xs with
    | some (x, rest) => matchElems es (some x) rest
    | none => false
  | RElem.optA a :: es, prev, xs =>
    (match atomMatch a xs with
     | some (x, rest) => matchElems es (some x) rest
     | none => false) || matchElems es prev xs
  | RElem.wb :: es, prev, xs => (isWordOpt prev != headWord xs) && matchElems es prev xs

def reSearchAux (alts : List (List RElem)) : Option Char → List Char → Bool
  | prev, [] => alts.any (fun a => matchElems a prev [])
  | prev, x :: rest =>
    alts.any (fun a => matchElems a prev (x :: rest)) || reSearchAux alts (some x) rest

def pyLower (s : List Char) : List Char := s.map Char.toLower

/-- Literal characters of a pattern alternative (patterns are stored in lower
case; the search lowers its input, which models the ignore-case flag at ASCII
level). -/
def cs (s : String) : List RElem := s.data.map (fun c => RElem.one (RAtom.ch c))

def dotE : RElem := RElem.one RAtom.dot

/-- The alternatives of MINING_RE, lines 47 to 56, in source order, lowered.
The two leading alternatives of the source, pow with boundaries in two
casings, lower to the same alternative, kept twice to preserve the shape. -/
def miningAlts : List (List RElem) :=
  [ RElem.wb :: cs ("pow") ++ [RElem.wb]
  , RElem.wb :: cs ("pow") ++ [RElem.wb]
  , cs ("proof") ++ [dotE] ++ cs ("of") ++ [dotE] ++ cs ("work")
  , cs ("mining")
  , cs ("miner")
  , cs ("hashrate")
  , cs ("hash") ++ [dotE] ++ cs ("rate")
  , cs ("cpu") ++ [dotE] ++ cs ("min")
  , cs ("gpu") ++ [dotE] ++ cs ("min")
  , cs ("asic") ++ [dotE] ++ cs ("resist")
  , cs ("fair") ++ [dotE] ++ cs ("launch")
  , cs ("no") ++ [dotE] ++ cs ("premine")
  , cs ("block") ++ [dotE] ++ cs ("reward")
  , cs ("mineable")
  , cs ("min") ++ [RElem.optA (RAtom.ch 'e')] ++ cs ("able")
  , cs ("randomx")
  , cs ("kawpow")
  , cs ("progpow")
  , cs ("equihash")
  , cs ("autolykos")
  , cs ("kheavyhash")
  , cs ("cryptonight")
  , cs ("minotaurx")
  , cs ("verthash")
  , cs ("fishhash")
  , cs ("zkpow")
  , cs ("beamhash")
  , cs ("yespower")
  , cs ("spectrex")
  , cs ("ethash")
  , RElem.wb :: cs ("scrypt") ++ [RElem.wb]
  , cs ("sha") ++ [RElem.optA RAtom.dot] ++ cs ("256") ++ [RElem.optA (RAtom.ch 'd')]
  , cs ("cuckoo")
  , cs ("blake3")
  , cs ("keccak") ++ [RElem.optA RAtom.dot] ++ cs ("256")
  , cs ("argon2")
  , cs ("stratum")
  , cs ("solo") ++ [dotE] ++ cs ("min")
  , cs ("pool") ++ [dotE] ++ cs ("min")
  ]

/-- The alternatives of MINING_EXCLUDE, lines 58 to 62, in source order,
lowered. -/
def excludeAlts : List (List RElem) :=
  [ cs ("trading")
  , cs ("bot")
  , cs ("assistant")
  , cs ("defi")
  , cs ("swap")
  , cs ("lending")
  , cs ("staking")
  , cs ("nft")
  , cs ("token sale")
  , cs ("presale")
  , cs ("ido")
  , cs ("ieo")
  , cs ("launchpad")
  , cs ("airdrop")
  , cs ("generosity")
  , cs ("charity")
  ]

def searchAlts (alts : List (List RElem)) (s : List Char) : Bool :=
  reSearchAux alts none s

/-- Model of is_mining_related: if the exclusion pattern matches the title the
answer is false, otherwise the answer is whether the inclusion pattern
matches.  The ignore-case flag is modelled by lowering the title against the
lowered patterns. -/
def is_mining_related (p : Post) : Bool :=
  let t := pyLower p.title
  if searchAlts excludeAlts t then false else searchAlts miningAlts t

/-- The value of the topic_id field of a loaded JSON object, when the field
is present: the integer the scraper writes, or an unhashable JSON value (an
array or an object), which raises TypeError as soon as the dict
comprehension of load_seen_topics uses it as a key.  Hashable non-integer
values (strings, numbers with a fractional part, and the like) are not
modelled: the comprehension accepts them as keys without error, and no claim
depends on them. -/
inductive TIdVal where
  | num (n : Nat)
  | unhashable
deriving DecidableEq

/-- A record of the persisted store as a JSON object: every field is optional
because a loaded file may lack fields.  The Python code only ever reads the
topic_id field of loaded records. -/
structure JRec where
  topic_id : Option TIdVal
  msg_id : Option Nat
  title : Option (List Char)
  url : Option (List Char)
  author : Option (List Char)
  is_mining : Option Bool
  found_at : Option (List Char)
deriving DecidableEq

/-- Does the record carry an integer topic_id field. -/
def hasIntId (r : JRec) : Bool :=
  match r.topic_id with
  | some (TIdVal.num _) => true
  | _ => false

/-- An element of the persisted JSON array: a JSON object, or any other JSON
value (subscripting the latter raises TypeError). -/
inductive JItem where
  | obj (r : JRec)
  | nonObj
deriving DecidableEq

/-- The state of the store file: absent, present but not valid JSON, or a
JSON array. -/
inductive StoreFile where
  | missing
  | invalid
  | arr (items : List JItem)
deriving DecidableEq

/-- The two exception kinds the dict comprehension of load_seen_topics can
raise: KeyError for an object without the topic_id field (caught by the
handler) and TypeError either for a non-object element or for an object
whose topic_id value is unhashable (neither is caught). -/
inductive LoadErr where
  | keyErr
  | typeErr
deriving DecidableEq

/-- Python dict assignment on an association list with integer keys: an
existing key keeps its position and gets the new value, a new key is
appended. -/
def dictInsert (k : Nat) (v : JRec) : List (Nat × JRec) → List (Nat × JRec)
  | [] => [(k, v)]
  | (k0, v0) :: rest => if k0 = k then (k0, v) :: rest else (k0, v0) :: dictInsert k v rest

/-- Python dict lookup. -/
def dfind (k : Nat) : List (Nat × JRec) → Option JRec
  | [] => none
  | (k0, v0) :: rest => if k0 = k then some v0 else dfind k rest

/-- The dict comprehension of load_seen_topics, left to right, stopping at
the first failing element with the matching exception kind: a missing field
raises KeyError, an unhashable field value raises TypeError at the key
insertion, a non-object element raises TypeError at the subscript. -/
def buildSeen : List JItem → List (Nat × JRec) → Except LoadErr (List (Nat × JRec))
  | [], acc => Except.ok acc
  | JItem.nonObj :: _, _ => Except.error LoadErr.typeErr
  | JItem.obj r :: rest, acc =>
    match r.topic_id with
    | none => Except.error LoadErr.keyErr
    | some (TIdVal.num k) => buildSeen rest (dictInsert k r acc)
    | some TIdVal.unhashable => Except.error LoadErr.typeErr

/-- Model of load_seen_topics: a missing file gives the empty dict; a file
that is not valid JSON raises json.JSONDecodeError, which the handler catches,
giving the empty dict; an object element without topic_id raises KeyError,
also caught; a non-object element, or an object whose topic_id value is
unhashable, raises TypeError, which the handler does not catch, so the
exception escapes: that is the `none` result. -/
def load_seen_topics : StoreFile → Option (List (Nat × JRec))
  | StoreFile.missing => some []
  | StoreFile.invalid => some []
  | StoreFile.arr items =>
    match buildSeen items [] with
    | Except.ok m => some m
    | Except.error LoadErr.keyErr => some []
    | Except.error LoadErr.typeErr => none

/-- The sort key of save_seen_topics; it is only applied under the guard
that the field holds an integer, mirroring the KeyError the Python key
function raises on a missing field. -/
def jKey (r : JRec) : Nat :=
  match r.topic_id with
  | some (TIdVal.num n) => n
  | _ => 0

/-- Model of save_seen_topics: serialize the dict values sorted descending by
topic_id.  `none` models the KeyError raised by the sort key when a record
lacks the field.  A mapping holding a non-integer field value never reaches
save in the program (loading such a file raises first, and the loop only
inserts integer ids); the model treats it as raising, as the mixed-type key
comparison of the Python sort would. -/
def save_seen_topics (seen : List (Nat × JRec)) : Option (List JRec) :=
  let vals := seen.map Prod.snd
  if vals.all hasIntId then some (sortDescBy jKey vals) else none

/-- The outcome of the webhook POST of one notification: an HTTP status, or a
network error raised by urlopen. -/
inductive NotifyOutcome where
  | status (n : Nat)
  | netErr
deriving DecidableEq

/-- What send_discord_notification logs for one outcome. -/
inductive NotifyLog where
  | sent
  | badStatus (n : Nat)
  | failLogged
deriving DecidableEq

/-- Model of send_discord_notification: the message formatting and the HTTP
POST are abstracted into the outcome argument.  Status 204 logs success, any
other status logs a warning, and a raised network error is caught by the
handler and logged; the function never raises. -/
def send_discord_notification : NotifyOutcome → NotifyLog
  | NotifyOutcome.status n => if n = 204 then NotifyLog.sent else NotifyLog.badStatus n
  | NotifyOutcome.netErr => NotifyLog.failLogged

/-- The record inserted into the store for a new post: the parsed fields plus
the classification and the discovery timestamp. -/
def postToJRec (p : Post) (mining : Bool) (now : List Char) : JRec :=
  { topic_id := some (TIdVal.num p.topic_id)
    msg_id := some p.msg_id
    title := some p.title
    url := some p.url
    author := some p.author
    is_mining := some mining
    found_at := some now }

/-- The in-memory state of the per-post loop of run_once. -/
structure LoopState where
  seen : List (Nat × JRec)
  count : Nat
  logs : List (Nat × NotifyLog)
deriving DecidableEq

/-- The per-post loop of run_once, lines 233 to 247: skip a topic id already
in the store; otherwise classify, timestamp, insert, count, and notify.  The
notification outcome for each topic id is supplied by the `outs` argument. -/
def runLoop (outs : Nat → NotifyOutcome) (now : List Char) :
    List Post → LoopState → LoopState
  | [], st => st
  | p :: ps, st =>
    if (dfind p.topic_id st.seen).isSome then runLoop outs now ps st
    else
      runLoop outs now ps
        { seen := dictInsert p.topic_id (postToJRec p (is_mining_related p) now) st.seen
          count := st.count + 1
          logs := st.logs ++ [(p.topic_id, send_discord_notification (outs p.topic_id))] }

/-- The observable result of one pass: the return value (`none` models an
uncaught exception), the resulting file state, whether the store file was
read and whether it was written, and the notification log. -/
structure RunResult where
  ret : Option Nat
  file : StoreFile
  readStore : Bool
  wroteStore : Bool
  logs : List (Nat × NotifyLog)
deriving DecidableEq

/-- Model of run_once: a fetch failure is caught and gives zero immediately,
before the store is read; a parse exception escapes before the store is read;
a load exception escapes before anything is written; otherwise the loop runs
and the store is rewritten unconditionally.  The fetch and the per-post
notifications are abstracted into the `fetched` and `outs` arguments. -/
def run_once (fetched : Except Unit (List Char)) (file : StoreFile) (now : List Char)
    (outs : Nat → NotifyOutcome) : RunResult :=
  match fetched with
  | Except.error _ =>
    { ret := some 0, file := file, readStore := false, wroteStore := false, logs := [] }
  | Except.ok html =>
    match parse_posts html with
    | none => { ret := none, file := file, readStore := false, wroteStore := false, logs := [] }
    | some posts =>
      match load_seen_topics file with
      | none => { ret := none, file := file, readStore := true, wroteStore := false, logs := [] }
      | some seen =>
        let st := runLoop outs now posts { seen := seen, count := 0, logs := [] }
        match save_seen_topics st.seen with
        | none =>
          { ret := none, file := file, readStore := true, wroteStore := false, logs := st.logs }
        | some arrData =>
          { ret := some st.count, file := StoreFile.arr (arrData.map JItem.obj),
            readStore := true, wroteStore := true, logs := st.logs }

/-! Concrete inputs used by the witnesses and counterexamples. -/

/-- A page with two structurally valid anchors that carry the same topic id. -/
def exDup : List Char :=
  ("<span id=\"msg_20000001\"><a href=\"https://bitcointalk.org/index.php?topic=5500002.0\">A</a></span>"
    ++ "<span id=\"msg_20000002\"><a href=\"https://bitcointalk.org/index.php?topic=5500002.0\">B</a></span>").data

/-- A page with two structurally valid anchors with distinct topic ids, both
above the thresholds, no pinned markers. -/
def exOk : List Char :=
  ("<span id=\"msg_20000001\"><a href=\"https://bitcointalk.org/index.php?topic=5500002.0\">A</a></span>"
    ++ "<span id=\"msg_20000009\"><a href=\"https://bitcointalk.org/index.php?topic=5600000.0\">B</a></span>").data

/-- The records parse_posts extracts from exOk. -/
def exOkPosts : List Post :=
  [ { topic_id := 5600000, msg_id := 20000009, title := [Char.ofNat 66],
      url := ("https://bitcointalk.org/index.php?topic=5600000.0").data, author := [] }
  , { topic_id := 5500002, msg_id := 20000001, title := [Char.ofNat 65],
      url := ("https://bitcointalk.org/index.php?topic=5500002.0").data, author := [] } ]

/-- A page whose matched title holds a numeric reference one past the largest
code point accepted by chr. -/
def exBadHtml : List Char :=
  ("<span id=\"msg_20000001\"><a href=\"https://bitcointalk.org/index.php?topic=5500002.0\">x&#1114112;</a></span>").data

/-- A page with one structurally valid anchor, topic id 5500002. -/
def exOne : List Char :=
  ("<span id=\"msg_20000001\"><a href=\"https://bitcointalk.org/index.php?topic=5500002.0\">A</a></span>").data

def exOnePosts : List Post :=
  [ { topic_id := 5500002, msg_id := 20000001, title := [Char.ofNat 65],
      url := ("https://bitcointalk.org/index.php?topic=5500002.0").data, author := [] } ]

/-- A stored record for topic 5500002. -/
def exRec : JRec :=
  { topic_id := some (TIdVal.num 5500002), msg_id := some 20000001,
    title := some [Char.ofNat 65],
    url := some (("https://bitcointalk.org/index.php?topic=5500002.0").data),
    author := some [], is_mining := some false, found_at := some (("t0").data) }

/-- A stored record for topic 5600000. -/
def exRec2 : JRec :=
  { topic_id := some (TIdVal.num 5600000), msg_id := some 20000009,
    title := some [Char.ofNat 66],
    url := some (("https://bitcointalk.org/index.php?topic=5600000.0").data),
    author := some [], is_mining := some false, found_at := some (("t1").data) }

def exSeen : List (Nat × JRec) := [(5500002, exRec)]

def exSeen2 : List (Nat × JRec) := [(5600000, exRec2), (5500002, exRec)]

def exFile : StoreFile := StoreFile.arr [JItem.obj exRec]

def exNow : List Char := ("2026-01-01 00:00:00").data

def exOuts : Nat → NotifyOutcome := fun _ => NotifyOutcome.status 204

/-- A record with every field absent. -/
def emptyJRec : JRec :=
  { topic_id := none, msg_id := none, title := none, url := none,
    author := none, is_mining := none, found_at := none }

/-- A record whose topic_id field holds an unhashable JSON value, such as an
array. -/
def unhashIdJRec : JRec :=
  { emptyJRec with topic_id := some TIdVal.unhashable }

/-- A post whose title names a mining algorithm and no excluded term. -/
def tRel : Post :=
  { topic_id := 1, msg_id := 1, title := ("New ASIC-resistant RandomX coin, fair launch").data,
    url := [], author := [] }

/-- A post whose title names a mining algorithm and an excluded term. -/
def tNotRel : Post :=
  { topic_id := 1, msg_id := 1, title := ("RandomX trading bot airdrop").data,
    url := [], author := [] }

/-! Lemmas about the stable descending insertion sort. -/

theorem insertDescBy_perm {α : Type} (key : α → Nat) (a : α) (l : List α) :
    (insertDescBy key a l).Perm (a :: l) := by
  induction l with
  | nil => exact List.Perm.refl _
  | cons b rest ih =>
    simp only [insertDescBy]
    by_cases h : key a ≤ key b
    · rw [if_pos h]
      exact (ih.cons b).trans (List.Perm.swap a b rest)
    · rw [if_neg h]

theorem sortDescBy_perm_aux {α : Type} (key : α → Nat) (l : List α) :
    ∀ acc : List α, (List.foldl (fun acc a => insertDescBy key a acc) acc l).Perm (l ++ acc) := by
  induction l with
  | nil => intro acc; simp
  | cons a rest ih =>
    intro acc
    have h1 := ih (insertDescBy key a acc)
    have h2 : (rest ++ insertDescBy key a acc).Perm (rest ++ (a :: acc)) :=
      List.Perm.append_left rest (insertDescBy_perm key a acc)
    have h3 : (rest ++ (a :: acc)).Perm (a :: (rest ++ acc)) := List.perm_middle
    simpa using (h1.trans (h2.trans h3))

theorem sortDescBy_perm {α : Type} (key : α → Nat) (l : List α) :
    (sortDescBy key l).Perm l := by
  simpa [sortDescBy] using sortDescBy_perm_aux key l []

theorem insertDescBy_sorted {α : Type} (key : α → Nat) (a : α) {l : List α}
    (h : l.Pairwise (fun x y => key y ≤ key x)) :
    (insertDescBy key a l).Pairwise (fun x y => key y ≤ key x) := by
  induction l with
  | nil => simp [insertDescBy]
  | cons b rest ih =>
    rw [List.pairwise_cons] at h
    simp only [insertDescBy]
    by_cases hab : key a ≤ key b
    · rw [if_pos hab, List.pairwise_cons]
      constructor
      · intro y hy
        rcases List.mem_cons.mp ((insertDescBy_perm key a rest).mem_iff.mp hy) with rfl | hyr
        · exact hab
        · exact h.1 y hyr
      · exact ih h.2
    · rw [if_neg hab, List.pairwise_cons]
      refine ⟨?_, List.pairwise_cons.mpr ⟨h.1, h.2⟩⟩
      intro y hy
      rcases List.mem_cons.mp hy with rfl | hyr
      · exact Nat.le_of_lt (Nat.not_le.mp hab)
      · exact Nat.le_trans (h.1 y hyr) (Nat.le_of_lt (Nat.not_le.mp hab))

theorem sortDescBy_sorted_aux {α : Type} (key : α → Nat) (l : List α) :
    ∀ acc : List α, acc.Pairwise (fun x y => key y ≤ key x) →
      (List.foldl (fun acc a => insertDescBy key a acc) acc l).Pairwise
        (fun x y => key y ≤ key x) := by
  induction l with
  | nil => intro acc h; simpa using h
  | cons a rest ih =>
    intro acc h
    simpa using ih (insertDescBy key a acc) (insertDescBy_sorted key a h)

theorem sortDescBy_sorted {α : Type} (key : α → Nat) (l : List α) :
    (sortDescBy key l).Pairwise (fun x y => key y ≤ key x) :=
  sortDescBy_sorted_aux key l [] List.Pairwise.nil

theorem sorted_strict_of_nodup {α : Type} (key : α → Nat) {l : List α}
    (hs : l.Pairwise (fun x y => key y ≤ key x)) (hn : (l.map key).Nodup) :
    l.Pairwise (fun x y => key y < key x) := by
  have hne : l.Pairwise (fun x y => key x ≠ key y) := List.pairwise_map.mp hn
  exact List.Pairwise.imp₂
    (fun x y hle hxy => Nat.lt_of_le_of_ne hle (fun he => hxy he.symm)) hs hne

/-! Lemmas about the per-match loop of parse_posts. -/

theorem processMatches_isSome_all {a : List (List Char × List Char)} {s : List (List Char)}
    {ms : List PostMatch} {ps : List Post} (h : processMatches a s ms = some ps) :
    ∀ m ∈ ms, (cleanTitle (pyStrip m.title)).isSome := by
  induction ms generalizing ps with
  | nil => intro m hm; cases hm
  | cons m0 ms ih =>
    intro m hm
    rcases hc : cleanTitle (pyStrip m0.title) with _ | ttl
    · simp [processMatches, hc] at h
    · rcases hr : processMatches a s ms with _ | rest
      · simp [processMatches, hc, hr] at h
      · rcases List.mem_cons.mp hm with rfl | hm2
        · simp [hc]
        · exact ih hr m hm2

theorem processMatches_eq {a : List (List Char × List Char)} {s : List (List Char)}
    {ms : List PostMatch} {ps : List Post} (h : processMatches a s ms = some ps) :
    ps = (ms.filter (keepM s)).map
      (fun m => buildPost a m ((cleanTitle (pyStrip m.title)).getD [])) := by
  induction ms generalizing ps with
  | nil =>
    simp only [processMatches] at h
    cases h
    simp
  | cons m0 ms ih =>
    rcases hc : cleanTitle (pyStrip m0.title) with _ | ttl
    · simp [processMatches, hc] at h
    · rcases hr : processMatches a s ms with _ | rest
      · simp [processMatches, hc, hr] at h
      · simp only [processMatches, hc, hr, Option.some_bind, Option.bind_eq_bind] at h
        have hrest := ih hr
        by_cases h1 : m0.topicId ∈ s
        · rw [if_pos h1] at h
          cases h
          have hk : keepM s m0 = false := by simp [keepM, h1]
          simp [List.filter_cons, hk, hrest]
        · by_cases h2 : digitsVal m0.msgId < 20000000
          · rw [if_neg h1, if_pos h2] at h
            cases h
            have hk : keepM s m0 = false := by simp [keepM, h1, h2]
            simp [List.filter_cons, hk, hrest]
          · by_cases h3 : digitsVal m0.topicId < 5500000
            · rw [if_neg h1, if_neg h2, if_pos h3] at h
              cases h
              have hk : keepM s m0 = false := by simp [keepM, h1, h2, h3]
              simp [List.filter_cons, hk, hrest]
            · rw [if_neg h1, if_neg h2, if_neg h3] at h
              cases h
              have hk : keepM s m0 = true := by simp [keepM, h1, h2, h3]
              simp [List.filter_cons, hk, hrest, hc]

theorem processMatches_isSome {a : List (List Char × List Char)} {s : List (List Char)}
    {ms : List PostMatch} (h : ∀ m ∈ ms, (cleanTitle (pyStrip m.title)).isSome) :
    (processMatches a s ms).isSome := by
  induction ms with
  | nil => simp [processMatches]
  | cons m0 ms ih =>
    have h0 := h m0 (List.mem_cons_self m0 ms)
    rcases Option.isSome_iff_exists.mp h0 with ⟨ttl, hc⟩
    have hrec := ih (fun m hm => h m (List.mem_cons_of_mem m0 hm))
    rcases Option.isSome_iff_exists.mp hrec with ⟨rest, hr⟩
    simp only [processMatches, hc, hr, Option.some_bind, Option.bind_eq_bind]
    by_cases h1 : m0.topicId ∈ s <;> by_cases h2 : digitsVal m0.msgId < 20000000 <;>
      by_cases h3 : digitsVal m0.topicId < 5500000 <;> simp [h1, h2, h3]

/-- C1 (corrected, counterexample): the original claim asserts a strictly
descending output for every page whose anchors all pass the filters; a page
with two anchors carrying the same topic id satisfies every hypothesis of
the claim, parse_posts returns both records, and the output is not strictly
descending. -/
theorem extractor_strict_desc_fails_on_duplicate_ids :
    (findPosts exDup).length = 2 ∧
    (∀ m ∈ findPosts exDup,
      (cleanTitle (pyStrip m.title)).isSome ∧ m.topicId ∉ findSticky exDup ∧
      20000000 ≤ digitsVal m.msgId ∧ 5500000 ≤ digitsVal m.topicId) ∧
    (parse_posts exDup).isSome ∧
    ((parse_posts exDup).getD []).length = 2 ∧
    ¬ ((parse_posts exDup).getD []).Pairwise (fun x y => y.topic_id < x.topic_id) := by
  decide

/-- C1 (amended): for every page whose structurally valid anchors are none
pinned, none below the two thresholds, whose titles all decode without error,
and whose topic ids are pairwise distinct, parse_posts returns exactly as
many records as there are anchors, sorted strictly descending by topic id. -/
theorem extractor_count_and_order_amended (html : List Char) (N : Nat)
    (hN : (findPosts html).length = N)
    (hok : ∀ m ∈ findPosts html,
      (cleanTitle (pyStrip m.title)).isSome ∧ m.topicId ∉ findSticky html ∧
      20000000 ≤ digitsVal m.msgId ∧ 5500000 ≤ digitsVal m.topicId)
    (hnd : ((findPosts html).map (fun m => digitsVal m.topicId)).Nodup) :
    ∃ posts, parse_posts html = some posts ∧ posts.length = N ∧
      posts.Pairwise (fun x y => y.topic_id < x.topic_id) := by
  have hsome := processMatches_isSome (a := sdictOf (findAuthors html))
    (s := findSticky html) (fun m hm => (hok m hm).1)
  rcases Option.isSome_iff_exists.mp hsome with ⟨ps, hps⟩
  have heq := processMatches_eq hps
  have hfilter : (findPosts html).filter (keepM (findSticky html)) = findPosts html := by
    apply List.filter_eq_self.mpr
    intro m hm
    have h := hok m hm
    simp [keepM, h.2.1, Nat.not_lt.mpr h.2.2.1, Nat.not_lt.mpr h.2.2.2]
  refine ⟨sortDescBy (fun p => p.topic_id) ps, ?_, ?_, ?_⟩
  · simp [parse_posts, hps]
  · rw [(sortDescBy_perm (fun p => p.topic_id) ps).length_eq, heq, hfilter,
      List.length_map, hN]
  · have hnd2 : (ps.map (fun p => p.topic_id)).Nodup := by
      rw [heq, hfilter]
      simpa [List.map_map, Function.comp, buildPost] using hnd
    have hnd3 : ((sortDescBy (fun p => p.topic_id) ps).map (fun p => p.topic_id)).Nodup :=
      ((sortDescBy_perm (fun p : Post => p.topic_id) ps).map (fun p => p.topic_id)).nodup_iff.mpr
        hnd2
    exact sorted_strict_of_nodup (fun p : Post => p.topic_id)
      (sortDescBy_sorted (fun p => p.topic_id) ps) hnd3

/-- Witness for C1: a page with two valid anchors with distinct topic ids
satisfies the hypotheses, and the conclusion holds there. -/
theorem extractor_count_and_order_witness :
    ∃ posts, parse_posts exOk = some posts ∧ posts.length = 2 ∧
      posts.Pairwise (fun x y => y.topic_id < x.topic_id) :=
  extractor_count_and_order_amended exOk 2 (by decide) (by decide) (by decide)

/-- C2 (confirmed): every record parse_posts emits comes from an anchor whose
topic id string is not in the pinned set of the page, with message id at
least 20000000 and topic id at least 5500000; and the number of records is
exactly the number of anchors that pass the three filters, so a violating
anchor yields no record. -/
theorem extractor_filters_sound (html : List Char) (posts : List Post)
    (h : parse_posts html = some posts) :
    (∀ p ∈ posts, 20000000 ≤ p.msg_id ∧ 5500000 ≤ p.topic_id ∧
      ∃ m, m ∈ findPosts html ∧ m.topicId ∉ findSticky html ∧
        20000000 ≤ digitsVal m.msgId ∧ 5500000 ≤ digitsVal m.topicId ∧
        ∃ t, cleanTitle (pyStrip m.title) = some t ∧
          p = buildPost (sdictOf (findAuthors html)) m t) ∧
    posts.length = ((findPosts html).filter (keepM (findSticky html))).length := by
  rcases hp : processMatches (sdictOf (findAuthors html)) (findSticky html) (findPosts html)
      with _ | ps
  · rw [parse_posts, hp] at h
    simp at h
  · rw [parse_posts, hp] at h
    simp only [Option.map_some'] at h
    cases h
    have heq := processMatches_eq hp
    constructor
    · intro p hp2
      have hmem : p ∈ ps := (sortDescBy_perm (fun q => q.topic_id) ps).mem_iff.mp hp2
      rw [heq] at hmem
      rcases List.mem_map.mp hmem with ⟨m, hmf, rfl⟩
      rcases List.mem_filter.mp hmf with ⟨hmm, hkeep⟩
      have hk := of_decide_eq_true hkeep
      have hcs : (cleanTitle (pyStrip m.title)).isSome := processMatches_isSome_all hp m hmm
      rcases Option.isSome_iff_exists.mp hcs with ⟨t, ht⟩
      refine ⟨Nat.not_lt.mp hk.2.1, Nat.not_lt.mp hk.2.2, m, hmm, hk.1,
        Nat.not_lt.mp hk.2.1, Nat.not_lt.mp hk.2.2, t, ht, ?_⟩
      rw [ht]
      rfl
    · rw [(sortDescBy_perm (fun q => q.topic_id) ps).length_eq, heq, List.length_map]

/-- Witness for C2: the number of records on a concrete page equals the
number of anchors passing the filters. -/
theorem extractor_filters_sound_witness :
    exOkPosts.length = ((findPosts exOk).filter (keepM (findSticky exOk))).length :=
  (extractor_filters_sound exOk exOkPosts (by decide)).2

/-- C3 (confirmed): the classifier answers false whenever the exclusion
pattern matches, answers the inclusion result otherwise, classifies the
ASIC-resistant RandomX title as relevant and the trading-bot-airdrop title as
not relevant. -/
theorem classifier_exclusion_precedence :
    (∀ p : Post, searchAlts excludeAlts (pyLower p.title) = true →
      is_mining_related p = false) ∧
    (∀ p : Post, searchAlts excludeAlts (pyLower p.title) = false →
      is_mining_related p = searchAlts miningAlts (pyLower p.title)) ∧
    is_mining_related tRel = true ∧ is_mining_related tNotRel = false := by
  refine ⟨?_, ?_, by decide, by decide⟩
  · intro p h
    simp [is_mining_related, h]
  · intro p h
    simp [is_mining_related, h]

/-- Witness for C3: the exclusion branch fires on the trading-bot-airdrop
title. -/
theorem classifier_exclusion_precedence_witness :
    is_mining_related tNotRel = false :=
  classifier_exclusion_precedence.1 tNotRel (by decide)

/-- C10 (confirmed): parse_posts is not total: on a page whose matched title
holds the numeric reference 1114112, one past the largest code point chr
accepts, the decode raises and no record list is returned. -/
theorem parse_posts_not_total : parse_posts exBadHtml = none := by decide

/-! Lemmas about the dict operations of the store. -/

theorem mem_dictInsert {k : Nat} {v : JRec} {d : List (Nat × JRec)} {pr : Nat × JRec}
    (h : pr ∈ dictInsert k v d) : pr = (k, v) ∨ pr ∈ d := by
  induction d with
  | nil => simpa [dictInsert] using h
  | cons p rest ih =>
    rcases p with ⟨k0, v0⟩
    by_cases hk : k0 = k
    · subst hk
      simp only [dictInsert, if_pos rfl] at h
      rcases List.mem_cons.mp h with he | hm
      · exact Or.inl (by simpa using he)
      · exact Or.inr (List.mem_cons_of_mem _ hm)
    · simp only [dictInsert, if_neg hk] at h
      rcases List.mem_cons.mp h with he | hm
      · exact Or.inr (he ▸ List.mem_cons_self _ _)
      · rcases ih hm with he2 | hm2
        · exact Or.inl he2
        · exact Or.inr (List.mem_cons_of_mem _ hm2)

theorem mem_keys_dictInsert {k2 k : Nat} {v : JRec} {d : List (Nat × JRec)} :
    k2 ∈ (dictInsert k v d).map Prod.fst ↔ k2 = k ∨ k2 ∈ d.map Prod.fst := by
  induction d with
  | nil => simp [dictInsert]
  | cons p rest ih =>
    rcases p with ⟨k0, v0⟩
    by_cases hk : k0 = k
    · subst hk
      simp [dictInsert]
    · simp [dictInsert, hk, ih]
      tauto

theorem nodup_keys_dictInsert {k : Nat} {v : JRec} {d : List (Nat × JRec)}
    (h : (d.map Prod.fst).Nodup) : ((dictInsert k v d).map Prod.fst).Nodup := by
  induction d with
  | nil => simp [dictInsert]
  | cons p rest ih =>
    rcases p with ⟨k0, v0⟩
    simp only [List.map_cons, List.nodup_cons] at h
    by_cases hk : k0 = k
    · have e : dictInsert k v ((k0, v0) :: rest) = (k0, v) :: rest := by
        simp [dictInsert, hk]
      rw [e, List.map_cons, List.nodup_cons]
      exact h
    · simp only [dictInsert, if_neg hk, List.map_cons, List.nodup_cons]
      refine ⟨?_, ih h.2⟩
      intro hmem
      rcases mem_keys_dictInsert.mp hmem with he | hm
      · exact hk he
      · exact h.1 hm

theorem dfind_dictInsert_self (k : Nat) (v : JRec) (d : List (Nat × JRec)) :
    dfind k (dictInsert k v d) = some v := by
  induction d with
  | nil => simp [dictInsert, dfind]
  | cons p rest ih =>
    rcases p with ⟨k0, v0⟩
    by_cases h : k0 = k
    · simp [dictInsert, dfind, h]
    · simp [dictInsert, dfind, h, ih]

theorem dfind_dictInsert_ne {k k2 : Nat} (v : JRec) (d : List (Nat × JRec)) (h : k2 ≠ k) :
    dfind k2 (dictInsert k v d) = dfind k2 d := by
  have hk2 : ¬ (k = k2) := fun he => h he.symm
  induction d with
  | nil => simp [dictInsert, dfind, hk2]
  | cons p rest ih =>
    rcases p with ⟨k0, v0⟩
    by_cases hk : k0 = k
    · subst hk
      have e : dictInsert k0 v ((k0, v0) :: rest) = (k0, v) :: rest := by simp [dictInsert]
      rw [e]
      simp [dfind, hk2]
    · simp only [dictInsert, if_neg hk]
      by_cases hk0 : k0 = k2
      · simp [dfind, hk0]
      · simp [dfind, hk0, ih]

theorem dfind_eq_none_iff {k : Nat} {d : List (Nat × JRec)} :
    dfind k d = none ↔ k ∉ d.map Prod.fst := by
  induction d with
  | nil => simp [dfind]
  | cons p rest ih =>
    rcases p with ⟨k0, v0⟩
    by_cases h : k0 = k
    · subst h
      simp [dfind]
    · simp only [dfind, if_neg h, List.map_cons, List.mem_cons, ih]
      constructor
      · rintro hnk (rfl | hm)
        · exact h rfl
        · exact hnk hm
      · intro hh
        exact fun hm => hh (Or.inr hm)

theorem dfind_mem {k : Nat} {d : List (Nat × JRec)} {v : JRec}
    (h : dfind k d = some v) : (k, v) ∈ d := by
  induction d with
  | nil => simp [dfind] at h
  | cons p rest ih =>
    rcases p with ⟨k0, v0⟩
    by_cases hk : k0 = k
    · subst hk
      simp only [dfind, if_pos rfl] at h
      cases h
      exact List.mem_cons_self _ _
    · simp only [dfind, if_neg hk] at h
      exact List.mem_cons_of_mem _ (ih h)

theorem dfind_of_mem_nodup {k : Nat} {v : JRec} {d : List (Nat × JRec)}
    (hm : (k, v) ∈ d) (hn : (d.map Prod.fst).Nodup) : dfind k d = some v := by
  induction d with
  | nil => cases hm
  | cons p rest ih =>
    rcases p with ⟨k0, v0⟩
    simp only [List.map_cons, List.nodup_cons] at hn
    rcases List.mem_cons.mp hm with he | hm2
    · cases he
      simp [dfind]
    · by_cases hk : k0 = k
      · subst hk
        exact absurd (List.mem_map_of_mem Prod.fst hm2) hn.1
      · simp [dfind, hk, ih hm2 hn.2]

theorem dfind_perm {d1 d2 : List (Nat × JRec)} (hp : d1.Perm d2)
    (hn : (d1.map Prod.fst).Nodup) (k : Nat) : dfind k d1 = dfind k d2 := by
  have hn2 : (d2.map Prod.fst).Nodup := ((hp.map Prod.fst).nodup_iff).mp hn
  rcases h1 : dfind k d1 with _ | v
  · rcases h2 : dfind k d2 with _ | v2
    · rfl
    · exfalso
      have hmem : (k, v2) ∈ d1 := hp.mem_iff.mpr (dfind_mem h2)
      rw [dfind_of_mem_nodup hmem hn] at h1
      cases h1
  · exact (dfind_of_mem_nodup (hp.subset (dfind_mem h1)) hn2).symm

/-! Lemmas about loading and saving the store. -/

theorem hasIntId_iff {r : JRec} :
    hasIntId r = true ↔ ∃ n, r.topic_id = some (TIdVal.num n) := by
  rcases h : r.topic_id with _ | tv
  · simp [hasIntId, h]
  · cases tv <;> simp [hasIntId, h]

theorem buildSeen_inv {items : List JItem} {m : List (Nat × JRec)} :
    ∀ {acc : List (Nat × JRec)}, buildSeen items acc = Except.ok m →
      (∀ pr ∈ acc, pr.2.topic_id = some (TIdVal.num pr.1)) → ((acc.map Prod.fst).Nodup) →
      (∀ pr ∈ m, pr.2.topic_id = some (TIdVal.num pr.1)) ∧ (m.map Prod.fst).Nodup := by
  induction items with
  | nil =>
    intro acc h h1 h2
    simp only [buildSeen] at h
    cases h
    exact ⟨h1, h2⟩
  | cons it rest ih =>
    intro acc h h1 h2
    cases it with
    | nonObj => simp [buildSeen] at h
    | obj r =>
      rcases hr : r.topic_id with _ | tv
      · simp [buildSeen, hr] at h
      · cases tv with
        | num k =>
          simp only [buildSeen, hr] at h
          refine ih h ?_ (nodup_keys_dictInsert h2)
          intro pr hpr
          rcases mem_dictInsert hpr with he | hm
          · rw [he]
            exact hr
          · exact h1 pr hm
        | unhashable => simp [buildSeen, hr] at h

theorem load_inv {f : StoreFile} {m : List (Nat × JRec)} (h : load_seen_topics f = some m) :
    (∀ pr ∈ m, pr.2.topic_id = some (TIdVal.num pr.1)) ∧ (m.map Prod.fst).Nodup := by
  cases f with
  | missing =>
    simp only [load_seen_topics] at h
    cases h
    simp
  | invalid =>
    simp only [load_seen_topics] at h
    cases h
    simp
  | arr items =>
    simp only [load_seen_topics] at h
    rcases hb : buildSeen items [] with err | m2
    · rw [hb] at h
      cases err with
      | keyErr =>
        simp only [Option.some.injEq] at h
        subst h
        simp
      | typeErr => simp at h
    · rw [hb] at h
      cases h
      exact buildSeen_inv hb (by simp) (by simp)

theorem buildSeen_objs {l : List JRec} (hl : ∀ r ∈ l, hasIntId r = true) :
    ∀ acc, buildSeen (l.map JItem.obj) acc =
      Except.ok (l.foldl (fun d r => dictInsert (jKey r) r d) acc) := by
  induction l with
  | nil => intro acc; simp [buildSeen]
  | cons r rest ih =>
    intro acc
    rcases hasIntId_iff.mp (hl r (List.mem_cons_self r rest)) with ⟨k, hk⟩
    have hkey : jKey r = k := by simp [jKey, hk]
    simp only [List.map_cons, buildSeen, hk, List.foldl_cons, hkey]
    exact ih (fun r2 h2 => hl r2 (List.mem_cons_of_mem r h2)) _

theorem dictInsert_append {k : Nat} {v : JRec} {d : List (Nat × JRec)}
    (h : k ∉ d.map Prod.fst) : dictInsert k v d = d ++ [(k, v)] := by
  induction d with
  | nil => simp [dictInsert]
  | cons p rest ih =>
    rcases p with ⟨k0, v0⟩
    simp only [List.map_cons, List.mem_cons] at h
    push_neg at h
    rw [dictInsert, if_neg (fun hh => h.1 hh.symm)]
    simp [ih h.2]

theorem foldl_dictInsert_fresh {l : List JRec} :
    ∀ {acc : List (Nat × JRec)}, (∀ r ∈ l, jKey r ∉ acc.map Prod.fst) →
      (l.map jKey).Nodup →
      l.foldl (fun d r => dictInsert (jKey r) r d) acc =
        acc ++ l.map (fun r => (jKey r, r)) := by
  induction l with
  | nil => intro acc _ _; simp
  | cons r rest ih =>
    intro acc hfresh hnd
    simp only [List.map_cons, List.nodup_cons] at hnd
    simp only [List.foldl_cons]
    rw [dictInsert_append (hfresh r (List.mem_cons_self r rest))]
    rw [ih ?_ hnd.2]
    · simp
    · intro r2 h2
      simp only [List.map_append, List.mem_append, List.map_cons, List.map_nil]
      rintro (hm | hm)
      · exact hfresh r2 (List.mem_cons_of_mem r h2) hm
      · simp only [List.mem_singleton] at hm
        exact hnd.1 (hm ▸ List.mem_map_of_mem jKey h2)

theorem save_ok {seen : List (Nat × JRec)} (h : ∀ pr ∈ seen, pr.2.topic_id = some (TIdVal.num pr.1)) :
    ∃ arrD, save_seen_topics seen = some arrD ∧ arrD.Perm (seen.map Prod.snd) ∧
      arrD.Pairwise (fun x y => jKey y ≤ jKey x) := by
  have hall : (seen.map Prod.snd).all hasIntId = true := by
    simp only [List.all_eq_true]
    intro r hr
    rcases List.mem_map.mp hr with ⟨pr, hpr, rfl⟩
    exact hasIntId_iff.mpr ⟨pr.1, h pr hpr⟩
  exact ⟨sortDescBy jKey (seen.map Prod.snd), by simp [save_seen_topics, hall],
    sortDescBy_perm _ _, sortDescBy_sorted _ _⟩

theorem load_saved {arrD : List JRec} (hs : ∀ r ∈ arrD, hasIntId r = true)
    (hnd : (arrD.map jKey).Nodup) :
    load_seen_topics (StoreFile.arr (arrD.map JItem.obj)) =
      some (arrD.map (fun r => (jKey r, r))) := by
  simp only [load_seen_topics]
  rw [buildSeen_objs hs []]
  rw [foldl_dictInsert_fresh (by simp) hnd]
  simp

theorem seen_self_pairs {seen : List (Nat × JRec)}
    (h : ∀ pr ∈ seen, pr.2.topic_id = some (TIdVal.num pr.1)) :
    seen.map (fun pr => (jKey pr.2, pr.2)) = seen := by
  induction seen with
  | nil => rfl
  | cons pr rest ih =>
    rcases pr with ⟨k, r⟩
    have hk := h (k, r) (List.mem_cons_self _ _)
    simp only [List.map_cons]
    rw [ih (fun pr2 h2 => h pr2 (List.mem_cons_of_mem _ h2))]
    simp only at hk
    simp [jKey, hk]

theorem round_trip_core {seen : List (Nat × JRec)}
    (h1 : ∀ pr ∈ seen, pr.2.topic_id = some (TIdVal.num pr.1))
    (h2 : (seen.map Prod.fst).Nodup) :
    ∃ arrD m, save_seen_topics seen = some arrD ∧
      arrD.Pairwise (fun x y => jKey y ≤ jKey x) ∧
      (arrD.map jKey).Perm (seen.map Prod.fst) ∧
      load_seen_topics (StoreFile.arr (arrD.map JItem.obj)) = some m ∧
      ∀ k, dfind k m = dfind k seen := by
  rcases save_ok h1 with ⟨arrD, hsave, hperm, hsorted⟩
  have hmapkeys : (seen.map Prod.snd).map jKey = seen.map Prod.fst := by
    rw [List.map_map]
    apply List.map_congr_left
    intro pr hpr
    simp [jKey, h1 pr hpr]
  have hkeys : (arrD.map jKey).Perm (seen.map Prod.fst) := by
    rw [← hmapkeys]
    exact hperm.map jKey
  have harrSome : ∀ r ∈ arrD, hasIntId r = true := by
    intro r hr
    have hmem : r ∈ seen.map Prod.snd := hperm.subset hr
    rcases List.mem_map.mp hmem with ⟨pr, hpr, rfl⟩
    exact hasIntId_iff.mpr ⟨pr.1, h1 pr hpr⟩
  have hndArr : (arrD.map jKey).Nodup := hkeys.nodup_iff.mpr h2
  have hload := load_saved harrSome hndArr
  refine ⟨arrD, arrD.map (fun r => (jKey r, r)), hsave, hsorted, hkeys, hload, ?_⟩
  intro k
  apply dfind_perm ?_ ?_ k
  · have hp2 := hperm.map (fun r => (jKey r, r))
    rw [List.map_map] at hp2
    have hself : seen.map ((fun r => (jKey r, r)) ∘ Prod.snd) = seen := seen_self_pairs h1
    rw [hself] at hp2
    exact hp2
  · rw [List.map_map]
    exact hndArr

/-! Lemmas about the per-post loop and run_once. -/

theorem runLoop_all_present {outs : Nat → NotifyOutcome} {now : List Char} {ps : List Post}
    {st : LoopState} (h : ∀ p ∈ ps, (dfind p.topic_id st.seen).isSome = true) :
    runLoop outs now ps st = st := by
  induction ps with
  | nil => rfl
  | cons p rest ih =>
    rw [runLoop, if_pos (h p (List.mem_cons_self p rest))]
    exact ih (fun q hq => h q (List.mem_cons_of_mem p hq))

theorem dfind_isSome_dictInsert {k k2 : Nat} {v : JRec} {d : List (Nat × JRec)}
    (h : (dfind k2 d).isSome = true) : (dfind k2 (dictInsert k v d)).isSome = true := by
  by_cases hk : k2 = k
  · subst hk
    rw [dfind_dictInsert_self]
    rfl
  · rw [dfind_dictInsert_ne v d hk]
    exact h

theorem runLoop_mono {outs : Nat → NotifyOutcome} {now : List Char} {ps : List Post}
    {st : LoopState} {k : Nat} (h : (dfind k st.seen).isSome = true) :
    (dfind k (runLoop outs now ps st).seen).isSome = true := by
  induction ps generalizing st with
  | nil => exact h
  | cons p rest ih =>
    rw [runLoop]
    by_cases hp : (dfind p.topic_id st.seen).isSome = true
    · rw [if_pos hp]
      exact ih h
    · rw [if_neg hp]
      exact ih (dfind_isSome_dictInsert h)

theorem runLoop_present {outs : Nat → NotifyOutcome} {now : List Char} {ps : List Post}
    {st : LoopState} : ∀ p ∈ ps, (dfind p.topic_id (runLoop outs now ps st).seen).isSome = true := by
  induction ps generalizing st with
  | nil => intro p hp; cases hp
  | cons q rest ih =>
    intro p hp
    rw [runLoop]
    by_cases hq : (dfind q.topic_id st.seen).isSome = true
    · rw [if_pos hq]
      rcases List.mem_cons.mp hp with rfl | hp2
      · exact runLoop_mono hq
      · exact ih p hp2
    · rw [if_neg hq]
      rcases List.mem_cons.mp hp with rfl | hp2
      · apply runLoop_mono
        simp only [dfind_dictInsert_self]
        rfl
      · exact ih p hp2

theorem runLoop_inv (outs : Nat → NotifyOutcome) (now : List Char) (ps : List Post)
    (st : LoopState) (h1 : ∀ pr ∈ st.seen, pr.2.topic_id = some (TIdVal.num pr.1))
    (h2 : (st.seen.map Prod.fst).Nodup) :
    (∀ pr ∈ (runLoop outs now ps st).seen, pr.2.topic_id = some (TIdVal.num pr.1)) ∧
      ((runLoop outs now ps st).seen.map Prod.fst).Nodup := by
  induction ps generalizing st with
  | nil => exact ⟨h1, h2⟩
  | cons p rest ih =>
    rw [runLoop]
    by_cases hp : (dfind p.topic_id st.seen).isSome = true
    · rw [if_pos hp]
      exact ih st h1 h2
    · rw [if_neg hp]
      apply ih
      · intro pr hpr
        rcases mem_dictInsert hpr with he | hm
        · rw [he]
          rfl
        · exact h1 pr hm
      · exact nodup_keys_dictInsert h2

theorem runLoop_outs_indep (now : List Char) (ps : List Post)
    (outs outs2 : Nat → NotifyOutcome) :
    ∀ (s : List (Nat × JRec)) (n : Nat) (lg lg2 : List (Nat × NotifyLog)),
      (runLoop outs now ps ⟨s, n, lg⟩).seen = (runLoop outs2 now ps ⟨s, n, lg2⟩).seen ∧
      (runLoop outs now ps ⟨s, n, lg⟩).count = (runLoop outs2 now ps ⟨s, n, lg2⟩).count := by
  induction ps with
  | nil => intro s n lg lg2; exact ⟨rfl, rfl⟩
  | cons p rest ih =>
    intro s n lg lg2
    rw [runLoop, runLoop]
    by_cases hp : (dfind p.topic_id s).isSome = true
    · rw [if_pos hp, if_pos hp]
      exact ih s n lg lg2
    · rw [if_neg hp, if_neg hp]
      exact ih _ _ _ _

theorem run_once_ok {html : List Char} {file : StoreFile} {posts : List Post}
    {seen : List (Nat × JRec)} (now : List Char) (outs : Nat → NotifyOutcome)
    (hp : parse_posts html = some posts) (hl : load_seen_topics file = some seen) :
    ∃ arrD, save_seen_topics (runLoop outs now posts ⟨seen, 0, []⟩).seen = some arrD ∧
      run_once (Except.ok html) file now outs =
        { ret := some (runLoop outs now posts ⟨seen, 0, []⟩).count,
          file := StoreFile.arr (arrD.map JItem.obj),
          readStore := true, wroteStore := true,
          logs := (runLoop outs now posts ⟨seen, 0, []⟩).logs } := by
  have hinv := load_inv hl
  have hinv2 := runLoop_inv outs now posts ⟨seen, 0, []⟩ hinv.1 hinv.2
  rcases save_ok hinv2.1 with ⟨arrD, hsave, -, -⟩
  refine ⟨arrD, hsave, ?_⟩
  simp only [run_once, hp, hl, hsave]

theorem run_once_noop {html : List Char} {file : StoreFile} {posts : List Post}
    {seen : List (Nat × JRec)} (now : List Char) (outs : Nat → NotifyOutcome)
    (hp : parse_posts html = some posts) (hl : load_seen_topics file = some seen)
    (hall : ∀ p ∈ posts, (dfind p.topic_id seen).isSome = true) :
    (run_once (Except.ok html) file now outs).ret = some 0 ∧
    ∃ m2, load_seen_topics (run_once (Except.ok html) file now outs).file = some m2 ∧
      ∀ k, dfind k m2 = dfind k seen := by
  have hlinv := load_inv hl
  have hloop : runLoop outs now posts ⟨seen, 0, []⟩ = ⟨seen, 0, []⟩ :=
    runLoop_all_present hall
  rcases round_trip_core hlinv.1 hlinv.2 with ⟨arrD, m2, hsave, -, -, hload, hfind⟩
  rcases run_once_ok now outs hp hl with ⟨arrD2, hsave2, hrun⟩
  rw [hloop] at hsave2 hrun
  simp only at hsave2
  rw [hsave] at hsave2
  cases hsave2
  rw [hrun]
  exact ⟨rfl, m2, hload, hfind⟩

theorem run_once_persists {html : List Char} {file : StoreFile} {posts : List Post}
    {seen : List (Nat × JRec)} (now : List Char) (outs : Nat → NotifyOutcome)
    (hp : parse_posts html = some posts) (hl : load_seen_topics file = some seen) :
    (run_once (Except.ok html) file now outs).ret.isSome = true ∧
    ∃ m1, load_seen_topics (run_once (Except.ok html) file now outs).file = some m1 ∧
      ∀ p ∈ posts, (dfind p.topic_id m1).isSome = true := by
  rcases run_once_ok now outs hp hl with ⟨arrD, hsave, hrun⟩
  have hinv := load_inv hl
  have hinv2 := runLoop_inv outs now posts ⟨seen, 0, []⟩ hinv.1 hinv.2
  rcases round_trip_core hinv2.1 hinv2.2 with ⟨arrD2, m1, hsave2, -, -, hload, hfind⟩
  rw [hsave] at hsave2
  cases hsave2
  constructor
  · rw [hrun]
    rfl
  · refine ⟨m1, ?_, ?_⟩
    · rw [hrun]
      exact hload
    · intro p hp2
      rw [hfind]
      exact runLoop_present p hp2

theorem run_once_outs_indep (fetched : Except Unit (List Char)) (file : StoreFile)
    (now : List Char) (outs outs2 : Nat → NotifyOutcome) :
    (run_once fetched file now outs).ret = (run_once fetched file now outs2).ret ∧
    (run_once fetched file now outs).file = (run_once fetched file now outs2).file ∧
    (run_once fetched file now outs).readStore = (run_once fetched file now outs2).readStore ∧
    (run_once fetched file now outs).wroteStore = (run_once fetched file now outs2).wroteStore := by
  cases fetched with
  | error e => exact ⟨rfl, rfl, rfl, rfl⟩
  | ok html =>
    rcases hp : parse_posts html with _ | posts
    · simp [run_once, hp]
    · rcases hl : load_seen_topics file with _ | seen
      · simp [run_once, hp, hl]
      · have hind := runLoop_outs_indep now posts outs outs2 seen 0 [] []
        simp only [run_once, hp, hl]
        rw [← hind.1, ← hind.2]
        rcases hs : save_seen_topics ((runLoop outs now posts ⟨seen, 0, []⟩).seen) with _ | arrD
        · simp [hs]
        · simp [hs]

/-- C4 (confirmed): a pass over a listing whose extracted topic ids are all
keys of the loaded store returns zero new records and leaves the record set
of the store unchanged; hence a second pass over an unchanged listing returns
zero and leaves the store unchanged. -/
theorem run_once_dedup_idempotent :
    (∀ (html : List Char) (file : StoreFile) (now : List Char) (outs : Nat → NotifyOutcome)
      (posts : List Post) (seen : List (Nat × JRec)),
      parse_posts html = some posts →
      load_seen_topics file = some seen →
      (∀ p ∈ posts, (dfind p.topic_id seen).isSome = true) →
      (run_once (Except.ok html) file now outs).ret = some 0 ∧
      ∃ m2, load_seen_topics (run_once (Except.ok html) file now outs).file = some m2 ∧
        ∀ k, dfind k m2 = dfind k seen) ∧
    (∀ (html : List Char) (file : StoreFile) (now now2 : List Char)
      (outs outs2 : Nat → NotifyOutcome),
      (run_once (Except.ok html) file now outs).ret.isSome = true →
      (run_once (Except.ok html) (run_once (Except.ok html) file now outs).file now2 outs2).ret
        = some 0 ∧
      ∃ m1 m2,
        load_seen_topics (run_once (Except.ok html) file now outs).file = some m1 ∧
        load_seen_topics
          (run_once (Except.ok html)
            (run_once (Except.ok html) file now outs).file now2 outs2).file = some m2 ∧
        ∀ k, dfind k m2 = dfind k m1) := by
  constructor
  · intro html file now outs posts seen hp hl hall
    exact run_once_noop now outs hp hl hall
  · intro html file now now2 outs outs2 hret
    rcases hp : parse_posts html with _ | posts
    · rw [run_once, hp] at hret
      simp at hret
    · rcases hl : load_seen_topics file with _ | seen
      · rw [run_once, hp, hl] at hret
        simp at hret
      · rcases run_once_persists now outs hp hl with ⟨-, m1, hload1, hpres⟩
        rcases run_once_noop now2 outs2 hp hload1 hpres
          with ⟨hret2, m2, hload2, hfind2⟩
        exact ⟨hret2, m1, m2, hload1, hload2, hfind2⟩

/-- Witness for C4: with the single extracted topic already stored, a
concrete pass returns zero and the loaded record set is unchanged. -/
theorem run_once_dedup_idempotent_witness :
    (run_once (Except.ok exOne) exFile exNow exOuts).ret = some 0 ∧
    ∃ m2, load_seen_topics (run_once (Except.ok exOne) exFile exNow exOuts).file = some m2 ∧
      ∀ k, dfind k m2 = dfind k exSeen :=
  run_once_dedup_idempotent.1 exOne exFile exNow exOuts exOnePosts exSeen
    (by decide) (by decide) (by decide)

/-- C5 (confirmed): when the fetch raises, the pass catches the exception and
returns zero without reading or writing the store file, which is unchanged. -/
theorem run_once_fetch_failure_safe (file : StoreFile) (now : List Char)
    (outs : Nat → NotifyOutcome) :
    run_once (Except.error ()) file now outs =
      { ret := some 0, file := file, readStore := false, wroteStore := false, logs := [] } :=
  rfl

/-- C7 (confirmed): the notifier reports success exactly for status 204; the
return value, file state and store accesses of a pass do not depend on the
notification outcomes; and whenever parse and load succeed the pass completes
and every extracted topic id is persisted, whatever the outcomes were. -/
theorem notify_failure_nonfatal :
    (∀ o, send_discord_notification o = NotifyLog.sent ↔ o = NotifyOutcome.status 204) ∧
    (∀ (fetched : Except Unit (List Char)) (file : StoreFile) (now : List Char)
      (outs outs2 : Nat → NotifyOutcome),
      (run_once fetched file now outs).ret = (run_once fetched file now outs2).ret ∧
      (run_once fetched file now outs).file = (run_once fetched file now outs2).file ∧
      (run_once fetched file now outs).readStore = (run_once fetched file now outs2).readStore ∧
      (run_once fetched file now outs).wroteStore =
        (run_once fetched file now outs2).wroteStore) ∧
    (∀ (html : List Char) (file : StoreFile) (now : List Char) (outs : Nat → NotifyOutcome)
      (posts : List Post) (seen : List (Nat × JRec)),
      parse_posts html = some posts → load_seen_topics file = some seen →
      (run_once (Except.ok html) file now outs).ret.isSome = true ∧
      ∃ m1, load_seen_topics (run_once (Except.ok html) file now outs).file = some m1 ∧
        ∀ p ∈ posts, (dfind p.topic_id m1).isSome = true) := by
  refine ⟨?_, ?_, ?_⟩
  · intro o
    cases o with
    | status n =>
      by_cases h : n = 204
      · subst h
        simp [send_discord_notification]
      · simp [send_discord_notification, h]
    | netErr => simp [send_discord_notification]
  · intro fetched file now outs outs2
    exact run_once_outs_indep fetched file now outs outs2
  · intro html file now outs posts seen hp hl
    exact run_once_persists now outs hp hl

/-- Witness for C7: on a concrete pass with one new post, the pass completes
and the post is persisted. -/
theorem notify_failure_nonfatal_witness :
    (run_once (Except.ok exOne) StoreFile.missing exNow exOuts).ret.isSome = true ∧
    ∃ m1, load_seen_topics (run_once (Except.ok exOne) StoreFile.missing exNow exOuts).file
        = some m1 ∧
      ∀ p ∈ exOnePosts, (dfind p.topic_id m1).isSome = true :=
  notify_failure_nonfatal.2.2 exOne StoreFile.missing exNow exOuts exOnePosts []
    (by decide) (by decide)

/-! Lemmas for the malformed-store claim. -/

theorem buildSeen_keyErr : ∀ items : List JItem,
    (∀ it ∈ items, ∃ r, it = JItem.obj r ∧ r.topic_id ≠ some TIdVal.unhashable) →
    (∃ r, JItem.obj r ∈ items ∧ r.topic_id = none) →
    ∀ acc, buildSeen items acc = Except.error LoadErr.keyErr := by
  intro items
  induction items with
  | nil =>
    intro _ hmiss _
    rcases hmiss with ⟨r, hr, -⟩
    cases hr
  | cons it rest ih =>
    intro hobj hmiss acc
    rcases hobj it (List.mem_cons_self it rest) with ⟨r0, rfl, hnu⟩
    rcases hr0 : r0.topic_id with _ | tv
    · simp [buildSeen, hr0]
    · cases tv with
      | num k =>
        simp only [buildSeen, hr0]
        apply ih
        · exact fun it2 h2 => hobj it2 (List.mem_cons_of_mem _ h2)
        · rcases hmiss with ⟨r, hr, hrn⟩
          rcases List.mem_cons.mp hr with he | hm
          · injection he with he2
            rw [he2] at hrn
            rw [hrn] at hr0
            cases hr0
          · exact ⟨r, hm, hrn⟩
      | unhashable => exact absurd hr0 hnu

/-- C8 (corrected, counterexample): the original claim asserts that any store
file whose records lack required fields loads as the empty mapping without
raising; a JSON array holding a non-object element makes the comprehension
raise TypeError, which the handler does not catch, so load raises. -/
theorem load_raises_on_non_object_record :
    load_seen_topics (StoreFile.arr [JItem.nonObj]) = none := rfl

/-- C8 (amended): a missing file and a file that is not valid JSON load as
the empty mapping, and a file all of whose records are JSON objects whose
topic_id field, when present, is an integer, some object lacking the field,
loads as the empty mapping after the caught KeyError.  A record that is not
a JSON object, or an object whose topic_id value is unhashable, instead
raises an uncaught TypeError, even when a later object lacks the field. -/
theorem load_malformed_returns_empty :
    load_seen_topics StoreFile.missing = some [] ∧
    load_seen_topics StoreFile.invalid = some [] ∧
    (∀ items : List JItem,
      (∀ it ∈ items, ∃ r, it = JItem.obj r ∧ r.topic_id ≠ some TIdVal.unhashable) →
      (∃ r, JItem.obj r ∈ items ∧ r.topic_id = none) →
      load_seen_topics (StoreFile.arr items) = some []) ∧
    load_seen_topics (StoreFile.arr [JItem.obj unhashIdJRec, JItem.obj emptyJRec]) = none := by
  refine ⟨rfl, rfl, ?_, rfl⟩
  intro items hobj hmiss
  simp [load_seen_topics, buildSeen_keyErr items hobj hmiss []]

/-- Witness for C8: a one-element array whose object lacks every field loads
as the empty mapping. -/
theorem load_malformed_returns_empty_witness :
    load_seen_topics (StoreFile.arr [JItem.obj emptyJRec]) = some [] :=
  load_malformed_returns_empty.2.2.1 [JItem.obj emptyJRec]
    (fun _ hit => ⟨emptyJRec, List.mem_singleton.mp hit, by decide⟩)
    ⟨emptyJRec, List.mem_singleton.mpr rfl, rfl⟩

/-- C6 (confirmed): saving a store whose keys match the topic_id fields and
are distinct, then loading the written array, reproduces a mapping that
agrees with the original on every key (so the same topic ids, titles and
timestamps), and the serialized order is descending by topic id. -/
theorem store_round_trip (seen : List (Nat × JRec))
    (h1 : ∀ pr ∈ seen, pr.2.topic_id = some (TIdVal.num pr.1))
    (h2 : (seen.map Prod.fst).Nodup) :
    ∃ arrD m, save_seen_topics seen = some arrD ∧
      arrD.Pairwise (fun x y => jKey y ≤ jKey x) ∧
      (arrD.map jKey).Perm (seen.map Prod.fst) ∧
      load_seen_topics (StoreFile.arr (arrD.map JItem.obj)) = some m ∧
      ∀ k, dfind k m = dfind k seen :=
  round_trip_core h1 h2

/-- Witness for C6: the round trip on a concrete two-record store. -/
theorem store_round_trip_witness :
    ∃ arrD m, save_seen_topics exSeen2 = some arrD ∧
      arrD.Pairwise (fun x y => jKey y ≤ jKey x) ∧
      (arrD.map jKey).Perm (exSeen2.map Prod.fst) ∧
      load_seen_topics (StoreFile.arr (arrD.map JItem.obj)) = some m ∧
      ∀ k, dfind k m = dfind k exSeen2 :=
  store_round_trip exSeen2 (by decide) (by decide)

/-! Lemmas about the title cleanup pipeline. -/

theorem not_prefix_second {a b c : Char} {pt r : List Char} (h : a ≠ b) :
    ¬ ((c :: a :: pt).isPrefixOf (c :: b :: r) = true) := by
  simp only [List.isPrefixOf, Bool.and_eq_true, beq_iff_eq]
  rintro ⟨-, hab, -⟩
  exact h hab

theorem not_prefix_apos {ds post : List Char} (hdig : ∀ c ∈ ds, c.isDigit = true)
    (hne : ds ≠ ['0', '3', '9']) :
    ¬ (aposPat.isPrefixOf ('&' :: '#' :: (ds ++ ';' :: post)) = true) := by
  rcases ds with _ | ⟨d1, ds1⟩
  · simp only [aposPat, List.nil_append, List.isPrefixOf, Bool.and_eq_true, beq_iff_eq]
    rintro ⟨-, -, h, -⟩
    exact absurd h (by decide)
  rcases ds1 with _ | ⟨d2, ds2⟩
  · simp only [aposPat, List.cons_append, List.nil_append, List.isPrefixOf,
      Bool.and_eq_true, beq_iff_eq]
    rintro ⟨-, -, -, h, -⟩
    exact absurd h (by decide)
  rcases ds2 with _ | ⟨d3, ds3⟩
  · simp only [aposPat, List.cons_append, List.nil_append, List.isPrefixOf,
      Bool.and_eq_true, beq_iff_eq]
    rintro ⟨-, -, -, -, h, -⟩
    exact absurd h (by decide)
  rcases ds3 with _ | ⟨d4, ds4⟩
  · simp only [aposPat, List.cons_append, List.nil_append, List.isPrefixOf,
      Bool.and_eq_true, beq_iff_eq]
    rintro ⟨-, -, h1, h2, h3, -⟩
    exact hne (by rw [← h1, ← h2, ← h3])
  · simp only [aposPat, List.cons_append, List.isPrefixOf, Bool.and_eq_true, beq_iff_eq]
    rintro ⟨-, -, -, -, -, h, -⟩
    have hd := hdig d4 (by simp)
    rw [← h] at hd
    exact absurd hd (by decide)

theorem pyReplaceF_no_head {pat rep : List Char} {c0 : Char} (hpat : ∃ pt, pat = c0 :: pt) :
    ∀ (fuel : Nat) (s : List Char), c0 ∉ s → pyReplaceF pat rep fuel s = s := by
  intro fuel
  induction fuel with
  | zero => intro s _; rfl
  | succ n ih =>
    intro s h
    cases s with
    | nil => rfl
    | cons c rest =>
      rcases hpat with ⟨pt, hpt⟩
      have hnp : ¬ (pat ≠ [] ∧ pat.isPrefixOf (c :: rest) = true) := by
        rintro ⟨-, hpre⟩
        rw [hpt] at hpre
        simp only [List.isPrefixOf, Bool.and_eq_true, beq_iff_eq] at hpre
        exact h (by rw [hpre.1]; exact List.mem_cons_self c rest)
      simp only [pyReplaceF]
      rw [if_neg hnp, ih rest (fun hm => h (List.mem_cons_of_mem c hm))]

theorem pyReplaceF_append {pat rep : List Char} {c0 : Char} (hpat : ∃ pt, pat = c0 :: pt) :
    ∀ (pre : List Char) (k : Nat) (r : List Char), c0 ∉ pre →
      pyReplaceF pat rep (pre.length + k) (pre ++ r) = pre ++ pyReplaceF pat rep k r := by
  intro pre
  induction pre with
  | nil => intro k r _; simp
  | cons c pre2 ih =>
    intro k r h
    rcases hpat with ⟨pt, hpt⟩
    have hnp : ¬ (pat ≠ [] ∧ pat.isPrefixOf (c :: (pre2 ++ r)) = true) := by
      rintro ⟨-, hpre⟩
      rw [hpt] at hpre
      simp only [List.isPrefixOf, Bool.and_eq_true, beq_iff_eq] at hpre
      exact h (by rw [hpre.1]; exact List.mem_cons_self c pre2)
    have hlen : (c :: pre2).length + k = (pre2.length + k) + 1 := by
      simp only [List.length_cons]
      omega
    rw [hlen, List.cons_append]
    simp only [pyReplaceF]
    rw [if_neg hnp, ih k r (fun hm => h (List.mem_cons_of_mem c hm))]
    rfl

theorem pyReplaceF_skip_amp {pat rep rest : List Char} {k : Nat}
    (hpat : ∃ pt, pat = '&' :: pt)
    (hnp : ¬ (pat.isPrefixOf ('&' :: rest) = true)) (hrest : '&' ∉ rest) :
    pyReplaceF pat rep (k + 1) ('&' :: rest) = '&' :: rest := by
  simp only [pyReplaceF]
  rw [if_neg (fun hh => hnp hh.2), pyReplaceF_no_head hpat k rest hrest]

theorem pyReplace_skip {pat rep pre rest : List Char}
    (hpat : ∃ pt, pat = '&' :: pt) (hpre : '&' ∉ pre)
    (hnp : ¬ (pat.isPrefixOf ('&' :: rest) = true)) (hrest : '&' ∉ rest) :
    pyReplace pat rep (pre ++ '&' :: rest) = pre ++ '&' :: rest := by
  rw [pyReplace]
  have hlen : (pre ++ '&' :: rest).length = pre.length + (rest.length + 1) := by
    simp
  rw [hlen, pyReplaceF_append hpat pre (rest.length + 1) ('&' :: rest) hpre,
    pyReplaceF_skip_amp hpat hnp hrest]

theorem pyReplace_no_amp {pat rep s : List Char} (hpat : ∃ pt, pat = '&' :: pt)
    (h : '&' ∉ s) : pyReplace pat rep s = s :=
  pyReplaceF_no_head hpat s.length s h

theorem numDecodeF_no_amp : ∀ (fuel : Nat) (s : List Char), '&' ∉ s →
    numDecodeF fuel s = some s := by
  intro fuel
  induction fuel with
  | zero => intro s _; rfl
  | succ n ih =>
    intro s h
    cases s with
    | nil => rfl
    | cons c rest =>
      have hc : ¬ (c = '&') := fun he => h (by rw [← he]; exact List.mem_cons_self c rest)
      simp only [numDecodeF]
      rw [if_neg hc, ih rest (fun hm => h (List.mem_cons_of_mem c hm))]
      rfl

theorem numDecodeF_append : ∀ (pre : List Char), '&' ∉ pre → ∀ (k : Nat) (r : List Char),
    numDecodeF (pre.length + k) (pre ++ r) = (numDecodeF k r).map (fun t => pre ++ t) := by
  intro pre
  induction pre with
  | nil =>
    intro _ k r
    simp only [List.length_nil, Nat.zero_add, List.nil_append]
    cases numDecodeF k r <;> simp
  | cons c pre2 ih =>
    intro h k r
    have hc : ¬ (c = '&') := fun he => h (by rw [← he]; exact List.mem_cons_self c pre2)
    have hlen : (c :: pre2).length + k = (pre2.length + k) + 1 := by
      simp only [List.length_cons]
      omega
    rw [hlen, List.cons_append]
    simp only [numDecodeF]
    rw [if_neg hc, ih (fun hm => h (List.mem_cons_of_mem c hm)) k r]
    cases numDecodeF k r <;> simp

theorem takeWhile_append_not {p : Char → Bool} : ∀ {l : List Char} {x : Char} {r : List Char},
    (∀ c ∈ l, p c = true) → p x = false →
    ((l ++ x :: r).takeWhile p = l ∧ (l ++ x :: r).dropWhile p = x :: r) := by
  intro l
  induction l with
  | nil =>
    intro x r _ hx
    simp [List.takeWhile_cons, List.dropWhile_cons, hx]
  | cons c l2 ih =>
    intro x r hl hx
    have hc := hl c (List.mem_cons_self c l2)
    have ihh := ih (x := x) (r := r) (fun c2 h2 => hl c2 (List.mem_cons_of_mem c h2)) hx
    simp [List.takeWhile_cons, List.dropWhile_cons, hc, ihh.1, ihh.2]

theorem numDecodeF_ref {ds post : List Char} {k : Nat}
    (hds : ds ≠ []) (hdig : ∀ c ∈ ds, c.isDigit = true) (hlt : digitsVal ds < 1114112)
    (hpost : '&' ∉ post) :
    numDecodeF (k + 1) ('&' :: '#' :: (ds ++ ';' :: post)) =
      some (Char.ofNat (digitsVal ds) :: post) := by
  have ht := takeWhile_append_not (l := ds) (x := ';') (r := post) hdig (by decide)
  simp only [numDecodeF, ht.1, ht.2, if_pos hds, if_pos hlt,
    numDecodeF_no_amp k post hpost, Option.map_some', if_true, eq_self_iff_true]

theorem stripTagsF_no_lt : ∀ (fuel : Nat) (s : List Char), '<' ∉ s →
    stripTagsF fuel s = s := by
  intro fuel
  induction fuel with
  | zero => intro s _; rfl
  | succ n ih =>
    intro s h
    cases s with
    | nil => rfl
    | cons c rest =>
      have hc : ¬ (c = '<') := fun he => h (by rw [← he]; exact List.mem_cons_self c rest)
      simp only [stripTagsF]
      rw [if_neg hc, ih rest (fun hm => h (List.mem_cons_of_mem c hm))]

theorem stripTagsF_append : ∀ (pre : List Char) (k : Nat) (r : List Char), '<' ∉ pre →
    stripTagsF (pre.length + k) (pre ++ r) = pre ++ stripTagsF k r := by
  intro pre
  induction pre with
  | nil => intro k r _; simp
  | cons c pre2 ih =>
    intro k r h
    have hc : ¬ (c = '<') := fun he => h (by rw [← he]; exact List.mem_cons_self c pre2)
    have hlen : (c :: pre2).length + k = (pre2.length + k) + 1 := by
      simp only [List.length_cons]
      omega
    rw [hlen, List.cons_append]
    simp only [stripTagsF]
    rw [if_neg hc, ih k r (fun hm => h (List.mem_cons_of_mem c hm))]
    rfl

theorem stripTagsF_tag {mid post : List Char} {k : Nat} (hm : mid ≠ []) (hgt : '>' ∉ mid) :
    stripTagsF (k + 1) ('<' :: (mid ++ '>' :: post)) = stripTagsF k post := by
  have hprop : ∀ c ∈ mid, (fun x => decide (x ≠ '>')) c = true := by
    intro c hc
    exact decide_eq_true (fun he => hgt (he ▸ hc))
  have ht := takeWhile_append_not (l := mid) (x := '>') (r := post) hprop (by decide)
  rcases mid with _ | ⟨c0, mid2⟩
  · exact absurd rfl hm
  · simp only [stripTagsF, ht.1, ht.2, if_true, eq_self_iff_true]

theorem mem_mid_amp {ds post : List Char} (hdig : ∀ c ∈ ds, c.isDigit = true)
    (hpost : '&' ∉ post) : '&' ∉ '#' :: (ds ++ ';' :: post) := by
  intro hm
  rcases List.mem_cons.mp hm with he | hm2
  · exact absurd he (by decide)
  · rcases List.mem_append.mp hm2 with hm3 | hm4
    · exact absurd (hdig '&' hm3) (by decide)
    · rcases List.mem_cons.mp hm4 with he2 | hm5
      · exact absurd he2 (by decide)
      · exact hpost hm5

theorem cleanTitle_numeric {pre post ds : List Char}
    (hpa : '&' ∉ pre) (hpl : '<' ∉ pre) (hqa : '&' ∉ post) (hql : '<' ∉ post)
    (hds : ds ≠ []) (hdig : ∀ c ∈ ds, c.isDigit = true) (hne : ds ≠ ['0', '3', '9'])
    (hlt : digitsVal ds < 1114112) (hcl : Char.ofNat (digitsVal ds) ≠ '<') :
    cleanTitle (pre ++ '&' :: '#' :: (ds ++ ';' :: post)) =
      some (pre ++ Char.ofNat (digitsVal ds) :: post) := by
  have hmid : '&' ∉ '#' :: (ds ++ ';' :: post) := mem_mid_amp hdig hqa
  have e1 : pyReplace ampPat ['&'] (pre ++ '&' :: '#' :: (ds ++ ';' :: post))
      = pre ++ '&' :: '#' :: (ds ++ ';' :: post) :=
    pyReplace_skip ⟨_, rfl⟩ hpa (not_prefix_second (by decide)) hmid
  have e2 : pyReplace ltPat ['<'] (pre ++ '&' :: '#' :: (ds ++ ';' :: post))
      = pre ++ '&' :: '#' :: (ds ++ ';' :: post) :=
    pyReplace_skip ⟨_, rfl⟩ hpa (not_prefix_second (by decide)) hmid
  have e3 : pyReplace gtPat ['>'] (pre ++ '&' :: '#' :: (ds ++ ';' :: post))
      = pre ++ '&' :: '#' :: (ds ++ ';' :: post) :=
    pyReplace_skip ⟨_, rfl⟩ hpa (not_prefix_second (by decide)) hmid
  have e4 : pyReplace aposPat [Char.ofNat 39] (pre ++ '&' :: '#' :: (ds ++ ';' :: post))
      = pre ++ '&' :: '#' :: (ds ++ ';' :: post) :=
    pyReplace_skip ⟨_, rfl⟩ hpa (not_prefix_apos hdig hne) hmid
  have e5 : pyReplace quotPat [Char.ofNat 34] (pre ++ '&' :: '#' :: (ds ++ ';' :: post))
      = pre ++ '&' :: '#' :: (ds ++ ';' :: post) :=
    pyReplace_skip ⟨_, rfl⟩ hpa (not_prefix_second (by decide)) hmid
  have hnl : '<' ∉ Char.ofNat (digitsVal ds) :: post := by
    intro hmem
    rcases List.mem_cons.mp hmem with he | hm2
    · exact hcl he.symm
    · exact hql hm2
  simp only [cleanTitle]
  rw [e1, e2, e3, e4, e5]
  rw [show (pre ++ '&' :: '#' :: (ds ++ ';' :: post)).length
      = pre.length + (('#' :: (ds ++ ';' :: post)).length + 1) from by
    simp only [List.length_append, List.length_cons]
    try omega]
  rw [numDecodeF_append pre hpa (('#' :: (ds ++ ';' :: post)).length + 1)
    ('&' :: '#' :: (ds ++ ';' :: post))]
  rw [numDecodeF_ref hds hdig hlt hqa]
  simp only [Option.map_some']
  rw [show (pre ++ Char.ofNat (digitsVal ds) :: post).length
      = pre.length + (post.length + 1) from by
    simp only [List.length_append, List.length_cons]
    try omega]
  rw [stripTagsF_append pre (post.length + 1) (Char.ofNat (digitsVal ds) :: post) hpl]
  rw [stripTagsF_no_lt (post.length + 1) (Char.ofNat (digitsVal ds) :: post) hnl]

theorem cleanTitle_tag {pre mid post : List Char}
    (hpa : '&' ∉ pre) (hpl : '<' ∉ pre) (hma : '&' ∉ mid) (hmg : '>' ∉ mid) (hm : mid ≠ [])
    (hqa : '&' ∉ post) (hql : '<' ∉ post) :
    cleanTitle (pre ++ '<' :: (mid ++ '>' :: post)) = some (pre ++ post) := by
  have hno : '&' ∉ pre ++ '<' :: (mid ++ '>' :: post) := by
    intro hmem
    rcases List.mem_append.mp hmem with h1 | h2
    · exact hpa h1
    · rcases List.mem_cons.mp h2 with he | h3
      · exact absurd he (by decide)
      · rcases List.mem_append.mp h3 with h4 | h5
        · exact hma h4
        · rcases List.mem_cons.mp h5 with he2 | h6
          · exact absurd he2 (by decide)
          · exact hqa h6
  simp only [cleanTitle]
  rw [@pyReplace_no_amp ampPat ['&'] _ ⟨_, rfl⟩ hno,
    @pyReplace_no_amp ltPat ['<'] _ ⟨_, rfl⟩ hno,
    @pyReplace_no_amp gtPat ['>'] _ ⟨_, rfl⟩ hno,
    @pyReplace_no_amp aposPat [Char.ofNat 39] _ ⟨_, rfl⟩ hno,
    @pyReplace_no_amp quotPat [Char.ofNat 34] _ ⟨_, rfl⟩ hno]
  rw [numDecodeF_no_amp _ _ hno]
  simp only [Option.map_some']
  rw [show (pre ++ '<' :: (mid ++ '>' :: post)).length
      = pre.length + ((mid ++ '>' :: post).length + 1) from by
    simp only [List.length_append, List.length_cons]
    try omega]
  rw [stripTagsF_append pre ((mid ++ '>' :: post).length + 1) ('<' :: (mid ++ '>' :: post)) hpl]
  rw [stripTagsF_tag hm hmg]
  rw [stripTagsF_no_lt (mid ++ '>' :: post).length post hql]

/-- C9 (corrected, counterexample): the original claim says named character
references are decoded to their characters; the code only replaces five fixed
entities, and a different named reference passes through unchanged instead of
becoming the character it names. -/
theorem named_entity_not_decoded :
    cleanTitle (("&nbsp;").data) = some (("&nbsp;").data) ∧
    (("&nbsp;").data) ≠ [Char.ofNat 160] := by decide

/-- C9 (amended): the five fixed entities are decoded, other named references
pass through unchanged; a numeric reference whose decimal digit string is not
039 and whose value is an acceptable code point becomes that code point in
context, and a tag span embedded in the title is removed entirely. -/
theorem title_decode_amended :
    (∀ pre post ds : List Char,
      '&' ∉ pre → '<' ∉ pre → '&' ∉ post → '<' ∉ post →
      ds ≠ [] → (∀ c ∈ ds, c.isDigit = true) → ds ≠ ['0', '3', '9'] →
      digitsVal ds < 1114112 → Char.ofNat (digitsVal ds) ≠ '<' →
      cleanTitle (pre ++ '&' :: '#' :: (ds ++ ';' :: post)) =
        some (pre ++ Char.ofNat (digitsVal ds) :: post)) ∧
    (∀ pre mid post : List Char,
      '&' ∉ pre → '<' ∉ pre → '&' ∉ mid → '>' ∉ mid → mid ≠ [] →
      '&' ∉ post → '<' ∉ post →
      cleanTitle (pre ++ '<' :: (mid ++ '>' :: post)) = some (pre ++ post)) ∧
    cleanTitle (("&amp;").data) = some ['&'] ∧
    cleanTitle (("&lt;").data) = some ['<'] ∧
    cleanTitle (("&gt;").data) = some ['>'] ∧
    cleanTitle (("&quot;").data) = some [Char.ofNat 34] ∧
    cleanTitle aposPat = some [Char.ofNat 39] ∧
    cleanTitle (("&nbsp;").data) = some (("&nbsp;").data) := by
  refine ⟨?_, ?_, by decide, by decide, by decide, by decide, by decide, by decide⟩
  · intro pre post ds hpa hpl hqa hql hds hdig hne hlt hcl
    exact cleanTitle_numeric hpa hpl hqa hql hds hdig hne hlt hcl
  · intro pre mid post hpa hpl hma hmg hm hqa hql
    exact cleanTitle_tag hpa hpl hma hmg hm hqa hql

/-- Witness for C9: a concrete numeric reference decodes in context. -/
theorem title_decode_amended_witness :
    cleanTitle ((("x").data) ++ '&' :: '#' :: ((("66").data) ++ ';' :: ("y").data)) =
      some ((("x").data) ++ Char.ofNat (digitsVal (("66").data)) :: ("y").data) :=
  title_decode_amended.1 (("x").data) (("y").data) (("66").data)
    (by decide) (by decide) (by decide) (by decide) (by decide) (by decide) (by decide)
    (by decide) (by decide)

end Scraper
